import Mathlib

/-!
Verification of the `generate` command of Divisor (`src/cli.py`).

`generate` loads a configuration, fetches the source repository into
`source_repo`, creates the Jekyll site structure, converts the home page to
`<destination>/index.md`, walks the configured subpages folder converting each
`*.md` file to `<destination>/<splitext(rel)>/index.md`, and finally copies the
assets to `<destination>/<media destination folder>`.

The embedding models the run as the trace of external calls the function makes
(conversions, directory creations, asset copies, console output), with the
on-disk source tree passed in explicitly.  The Python path primitives that
`generate` relies on — `os.path.join`, `os.path.splitext`, `str.endswith` and
the `os.walk`/`os.path.relpath` combination — are modelled faithfully at the
character level below.
-/

namespace Divisor

/-- Does a character list start with `/`? -/
def startsSlash : List Char → Bool
  | [] => false
  | c :: _ => c = '/'

/-- Does a character list end with `/`? -/
def endsSlash (l : List Char) : Bool := startsSlash l.reverse

/-- CPython `posixpath.join(a, b)` on character lists: an absolute `b` replaces
`a`; otherwise a `/` separator is inserted unless `a` is empty or already ends
with `/`. -/
def pjoinL (a b : List Char) : List Char :=
  if startsSlash b then b
  else if a = [] ∨ endsSlash a then a ++ b
  else a ++ '/' :: b

/-- CPython `posixpath.join(a, b)` for two components, as used by
`os.path.join` in `src/cli.py` (POSIX separators). -/
def pjoin (a b : String) : String := ⟨pjoinL a.data b.data⟩

/-- Scan a reversed path for the last dot of its final component: `some r`
when a `.` occurs before any `/` (with `r` the reversed part in front of that
dot), `none` otherwise. -/
def dropDotSuffixRev : List Char → Option (List Char)
  | [] => none
  | c :: rest =>
      if c = '/' then none
      else if c = '.' then some rest
      else dropDotSuffixRev rest

/-- CPython `posixpath.splitext(p)[0]` on character lists: the extension starts
at the last dot of the final component, except that a run of dots at the very
start of the final component never begins an extension (CPython skips the
leading dots of the basename, so `splitext(".md")[0] = ".md"`). -/
def splitextL (p : List Char) : List Char :=
  (dropDotSuffixRev p.reverse).elim p (fun rest =>
    if (rest.takeWhile (fun c => c ≠ '/')).any (fun c => c ≠ '.') then rest.reverse
    else p)

/-- `os.path.splitext(p)[0]` as used on `relative_path` in `src/cli.py`. -/
def splitextRoot (p : String) : String := ⟨splitextL p.data⟩

/-- Python `file.endswith(".md")` (case sensitive). -/
def hasMdSuffix (f : String) : Bool :=
  match f.data.reverse with
  | c₁ :: c₂ :: c₃ :: _ => c₁ = 'd' && c₂ = 'm' && c₃ = '.'
  | _ => false

/-- `/`-join a list of path components (character level). -/
def jcL : List (List Char) → List Char
  | [] => []
  | [x] => x
  | x :: xs => x ++ '/' :: jcL xs

/-- `/`-join a list of path components.  For plain component names (nonempty,
free of `/`, and not `.` or `..`) this is the value
`os.path.relpath(os.path.join(root, file), start)` computes for a file reached
by `os.walk(start)` at relative directory components `rd` — the form
`src/cli.py` uses it in. -/
def joinComps (l : List String) : String := ⟨jcL (l.map String.data)⟩

/-- A directory tree as the OS reports it: subdirectories and files in
directory-listing order (`os.scandir` order, which `os.walk` preserves). -/
inductive FTree where
  | node (dirs : List (String × FTree)) (files : List String)

mutual

/-- The files enumerated by a top-down `os.walk`, as
(relative directory components, file name) pairs: all files of a directory in
listing order, then the subdirectories recursively in listing order. -/
def walkFiles : FTree → List (List String × String)
  | .node dirs files => files.map (fun f => (([] : List String), f)) ++ walkDirs dirs

/-- Helper for `walkFiles`: walk a directory listing in order. -/
def walkDirs : List (String × FTree) → List (List String × String)
  | [] => []
  | (d, t) :: rest => (walkFiles t).map (fun e => (d :: e.1, e.2)) ++ walkDirs rest

end

/-- Trace events: the external calls `generate` makes, in order. `warn` models
a warning diagnostic; `src/cli.py` never emits one, but the event is part of
the observable vocabulary so that claims about warnings are statable. -/
inductive Ev where
  | loadConfig (path : String)
  | fetch (repo : String)
  | echo (msg : String)
  | createStructure (dest : String)
  | convert (src dst base : String)
  | mkdirs (dir : String) (existOk : Bool)
  | copyAssets (src dst : String)
  | warn (msg : String)
  deriving DecidableEq

/-- The `content_mapping` section of the configuration (`cfg.content_mapping`
in `src/cli.py`).  `subpages_folder` is `none` when the key is absent; a
present empty string is equally falsy in Python, which the code below honours. -/
structure ContentMapping where
  home_page_source : String
  subpages_folder : Option String
  destination_folder : String
  media_destination_folder : String

/-- The configuration object returned by `load_config`. -/
structure Config where
  source_repository : String
  content_mapping : ContentMapping

/-- The `root` path `os.walk` reports for relative directory components `rd`:
it starts at `src` and descends with `os.path.join(root, dirname)`. -/
def walkRootFor (src : String) (rd : List String) : String := rd.foldl pjoin src

/-- `source_path = os.path.join(root, file)` (line 52 of `src/cli.py`). -/
def srcPathFor (src : String) (rd : List String) (f : String) : String :=
  pjoin (walkRootFor src rd) f

/-- `dest_dir = os.path.join(subpages_dest_dir, os.path.splitext(relative_path)[0])`
(line 54 of `src/cli.py`), with `relative_path` the `/`-joined components. -/
def destDirFor (d : String) (rd : List String) (f : String) : String :=
  pjoin d (splitextRoot (joinComps (rd ++ [f])))

/-- `dest_path = os.path.join(dest_dir, "index.md")` (line 56 of `src/cli.py`). -/
def destPathFor (d : String) (rd : List String) (f : String) : String :=
  pjoin (destDirFor d rd f) "index.md"

/-- The two calls lines 55–57 of `src/cli.py` make for one matching file:
`os.makedirs(dest_dir, exist_ok=True)` then `converter.convert_file(...)`. -/
def pageEventsFor (src d : String) (e : List String × String) : List Ev :=
  [Ev.mkdirs (destDirFor d e.1 e.2) true,
   Ev.convert (srcPathFor src e.1 e.2) (destPathFor d e.1 e.2) "source_repo"]

/-- The subpage loop (lines 49–57 of `src/cli.py`): walk the tree and process
every file whose name ends in `.md`. -/
def subpageEvents (src d : String) (t : FTree) : List Ev :=
  (walkFiles t).flatMap (fun e => if hasMdSuffix e.2 then pageEventsFor src d e else [])

/-- Lines 44–57 of `src/cli.py`: the subpage step runs only when
`subpages_folder` is truthy, differs from `"<none>"`, and the folder exists on
disk; otherwise it contributes no events. -/
def subpagePart (cm : ContentMapping) (disk : String → Option FTree) : List Ev :=
  match cm.subpages_folder with
  | none => []
  | some s =>
      if s ≠ "" ∧ s ≠ "<none>" then
        match disk ("source_repo/" ++ s) with
        | some t => subpageEvents ("source_repo/" ++ s) cm.destination_folder t
        | none => []
      else []

/-- The trace of the `generate` command (lines 19–66 of `src/cli.py`):
configuration load, source fetch, the destination-folder print, Jekyll
structure creation, home-page conversion to `<destination>/index.md`, the
subpage loop, asset copying to `<destination>/<media destination folder>`,
and the final success message. -/
def generate (configPath : String) (cfg : Config) (disk : String → Option FTree) : List Ev :=
  [Ev.loadConfig configPath,
   Ev.fetch cfg.source_repository,
   Ev.echo ("Destination folder: " ++ cfg.content_mapping.destination_folder),
   Ev.createStructure cfg.content_mapping.destination_folder,
   Ev.convert ("source_repo/" ++ cfg.content_mapping.home_page_source)
     (cfg.content_mapping.destination_folder ++ "/index.md") "source_repo"]
  ++ subpagePart cfg.content_mapping disk
  ++ [Ev.copyAssets "source_repo"
        (cfg.content_mapping.destination_folder ++ "/" ++
          cfg.content_mapping.media_destination_folder),
      Ev.echo "Website generated successfully!"]

/-- The `convert_file` invocations of a trace, as (source, destination, base)
triples, in order. -/
def convertsOf (l : List Ev) : List (String × String × String) :=
  l.filterMap fun e => match e with
    | Ev.convert s d b => some (s, d, b)
    | _ => none

/-- The source paths passed to `convert_file`, in order. -/
def convertSources (l : List Ev) : List String := (convertsOf l).map (fun c => c.1)

/-- The destination paths passed to `convert_file`, in order. -/
def convertDests (l : List Ev) : List String := (convertsOf l).map (fun c => c.2.1)

example : pjoin "site" "a" = "site/a" := by decide
example : pjoin "site/" "a" = "site/a" := by decide
example : pjoin "site" "/a" = "/a" := by decide
example : pjoin "" "a" = "a" := by decide
example : splitextRoot "a/b.md" = "a/b" := by decide
example : splitextRoot ".md" = ".md" := by decide
example : splitextRoot "x/.md.md" = "x/.md" := by decide
example : splitextRoot "a.b/c" = "a.b/c" := by decide
example : hasMdSuffix "a.md" = true := by decide
example : hasMdSuffix "a.MD" = false := by decide
example : destPathFor "site" ["a", "b"] "c.md" = "site/a/b/c/index.md" := by decide

/-- A plain file or directory name: nonempty and free of `/` (the names a real
file system hands to `os.walk`; `.` and `..` are never listed). -/
abbrev plainName (s : String) : Prop := s.data ≠ [] ∧ ∀ c ∈ s.data, c ≠ '/'

/-! ### Properties of the path primitives -/

theorem takeWhile_append_all {α : Type} (p : α → Bool) (l r : List α)
    (h : ∀ x ∈ l, p x = true) :
    (l ++ r).takeWhile p = l ++ r.takeWhile p := by
  induction l with
  | nil => simp
  | cons a t ih =>
    simp only [List.cons_append, List.takeWhile_cons, h a (by simp), if_pos trivial]
    rw [ih (fun x hx => h x (by simp [hx]))]

theorem dropDotSuffixRev_md (r : List Char) :
    dropDotSuffixRev ('d' :: 'm' :: '.' :: r) = some r := by
  simp [dropDotSuffixRev]

/-- The stripping case of `splitext`: when the final path component is
`g ++ ".md"` with `g` free of `/` and containing some non-dot character, the
`.md` extension is removed. -/
theorem splitextL_strip (pre g : List Char)
    (hpre : pre = [] ∨ ∃ q, pre = q ++ ['/'])
    (hsl : ∀ c ∈ g, c ≠ '/') (hnd : ∃ c ∈ g, c ≠ '.') :
    splitextL (pre ++ (g ++ ['.', 'm', 'd'])) = pre ++ g := by
  have hrev : (pre ++ (g ++ ['.', 'm', 'd'])).reverse
      = 'd' :: 'm' :: '.' :: (g.reverse ++ pre.reverse) := by
    simp [List.reverse_append]
  unfold splitextL
  rw [hrev, dropDotSuffixRev_md, Option.elim_some]
  have htw : (g.reverse ++ pre.reverse).takeWhile (fun c => c ≠ '/')
      = g.reverse ++ pre.reverse.takeWhile (fun c => c ≠ '/') :=
    takeWhile_append_all _ _ _
      (fun x hx => by simpa using hsl x (List.mem_reverse.mp hx))
  have hpw : pre.reverse.takeWhile (fun c => c ≠ '/') = [] := by
    rcases hpre with rfl | ⟨q, rfl⟩
    · simp
    · simp [List.reverse_append, List.takeWhile_cons]
  have hany : (g.reverse ++ pre.reverse.takeWhile (fun c => c ≠ '/')).any
      (fun c => c ≠ '.') = true := by
    rw [hpw, List.append_nil, List.any_reverse]
    rcases hnd with ⟨c, hc, hcd⟩
    exact List.any_eq_true.mpr ⟨c, hc, by simpa using hcd⟩
  rw [htw, if_pos hany]
  simp [List.reverse_append]

/-- The `/`-separated text a nonempty component list contributes in front of a
final component. -/
def jcPre : List (List Char) → List Char
  | [] => []
  | x :: xs => jcL (x :: xs) ++ ['/']

theorem jcL_append_single (xs : List (List Char)) (w : List Char) :
    jcL (xs ++ [w]) = jcPre xs ++ w := by
  induction xs with
  | nil => rfl
  | cons x xs ih =>
    cases xs with
    | nil => simp [jcL, jcPre]
    | cons y ys =>
      have h1 : jcL ((x :: y :: ys) ++ [w]) = x ++ '/' :: jcL ((y :: ys) ++ [w]) := rfl
      rw [h1, ih]
      simp [jcPre, jcL]

theorem splitextRoot_strip (rd : List String) (g : String)
    (hsl : ∀ c ∈ g.data, c ≠ '/') (hnd : ∃ c ∈ g.data, c ≠ '.') :
    splitextRoot (joinComps (rd ++ [g ++ ".md"])) = joinComps (rd ++ [g]) := by
  apply String.ext
  show splitextL (jcL ((rd ++ [g ++ ".md"]).map String.data))
      = jcL ((rd ++ [g]).map String.data)
  rw [List.map_append, List.map_append, List.map_singleton, List.map_singleton,
    jcL_append_single, jcL_append_single]
  have hd : (g ++ ".md").data = g.data ++ ['.', 'm', 'd'] := rfl
  rw [hd]
  apply splitextL_strip _ _ _ hsl hnd
  cases hm : rd.map String.data with
  | nil => exact Or.inl rfl
  | cons x xs => exact Or.inr ⟨jcL (x :: xs), rfl⟩

/-! ### Shape of joined paths -/

theorem append_slash_inj (x : List Char) : ∀ (y r₁ r₂ : List Char),
    (∀ c ∈ x, c ≠ '/') → (∀ c ∈ y, c ≠ '/') →
    x ++ '/' :: r₁ = y ++ '/' :: r₂ → x = y ∧ r₁ = r₂ := by
  induction x with
  | nil =>
    intro y r₁ r₂ _ hy h
    cases y with
    | nil => simpa using h
    | cons b y' =>
      rw [List.nil_append, List.cons_append] at h
      injection h with h1 _
      exact absurd h1.symm (hy b (by simp))
  | cons a x' ih =>
    intro y r₁ r₂ hx hy h
    cases y with
    | nil =>
      rw [List.cons_append, List.nil_append] at h
      injection h with h1 _
      exact absurd h1 (hx a (by simp))
    | cons b y' =>
      rw [List.cons_append, List.cons_append] at h
      injection h with h1 h2
      obtain ⟨h3, h4⟩ := ih y' r₁ r₂ (fun c hc => hx c (List.mem_cons_of_mem a hc))
        (fun c hc => hy c (List.mem_cons_of_mem b hc)) h2
      exact ⟨by rw [h1, h3], h4⟩

theorem jcL_ne_nil (y : List Char) (ys : List (List Char)) (hy : y ≠ []) :
    jcL (y :: ys) ≠ [] := by
  cases ys with
  | nil => simpa [jcL] using hy
  | cons z zs => simp [jcL]

theorem slash_mem_jcL (y z : List Char) (zs : List (List Char)) :
    '/' ∈ jcL (y :: z :: zs) := by
  simp [jcL]

theorem jcL_inj (l₁ : List (List Char)) : ∀ (l₂ : List (List Char)),
    (∀ x ∈ l₁, x ≠ [] ∧ ∀ c ∈ x, c ≠ '/') →
    (∀ x ∈ l₂, x ≠ [] ∧ ∀ c ∈ x, c ≠ '/') →
    jcL l₁ = jcL l₂ → l₁ = l₂ := by
  induction l₁ with
  | nil =>
    intro l₂ _ h₂ h
    cases l₂ with
    | nil => rfl
    | cons y ys => exact absurd h.symm (jcL_ne_nil y ys (h₂ y (by simp)).1)
  | cons x xs ih =>
    intro l₂ h₁ h₂ h
    cases l₂ with
    | nil => exact absurd h (jcL_ne_nil x xs (h₁ x (by simp)).1)
    | cons y ys =>
      cases xs with
      | nil =>
        cases ys with
        | nil =>
          have hxy : x = y := h
          rw [hxy]
        | cons z zs =>
          have hx2 : x = jcL (y :: z :: zs) := h
          exact absurd rfl ((h₁ x (by simp)).2 '/' (hx2 ▸ slash_mem_jcL y z zs))
      | cons x' xs' =>
        cases ys with
        | nil =>
          have hy2 : y = jcL (x :: x' :: xs') := h.symm
          exact absurd rfl ((h₂ y (by simp)).2 '/' (hy2 ▸ slash_mem_jcL x x' xs'))
        | cons y' ys' =>
          have h' : x ++ '/' :: jcL (x' :: xs') = y ++ '/' :: jcL (y' :: ys') := h
          obtain ⟨hxy, ht⟩ := append_slash_inj x y _ _ (h₁ x (by simp)).2 (h₂ y (by simp)).2 h'
          have hrest := ih (y' :: ys') (fun a ha => h₁ a (List.mem_cons_of_mem x ha))
            (fun a ha => h₂ a (List.mem_cons_of_mem y ha)) ht
          rw [hxy, hrest]

theorem joinComps_inj (l₁ l₂ : List String)
    (h₁ : ∀ x ∈ l₁, plainName x) (h₂ : ∀ x ∈ l₂, plainName x)
    (h : joinComps l₁ = joinComps l₂) : l₁ = l₂ := by
  have hd : jcL (l₁.map String.data) = jcL (l₂.map String.data) := congrArg String.data h
  have hm := jcL_inj (l₁.map String.data) (l₂.map String.data)
    (by intro x hx; obtain ⟨s, hs, rfl⟩ := List.mem_map.mp hx; exact h₁ s hs)
    (by intro x hx; obtain ⟨s, hs, rfl⟩ := List.mem_map.mp hx; exact h₂ s hs)
    hd
  exact List.map_injective_iff.mpr (fun a b hab => String.ext hab) hm

/-- The text `posixpath.join` puts in front of a relative second argument. -/
def dPre (a : List Char) : List Char :=
  if a = [] ∨ endsSlash a then a else a ++ ['/']

theorem pjoinL_rel (a b : List Char) (hb : startsSlash b = false) :
    pjoinL a b = dPre a ++ b := by
  unfold pjoinL dPre
  rw [if_neg (by simp [hb])]
  split
  · rfl
  · simp

theorem dPre_cases (a : List Char) : dPre a = a ∨ dPre a = a ++ ['/'] := by
  unfold dPre
  split
  · exact Or.inl rfl
  · exact Or.inr rfl

theorem dPre_of_not (a : List Char) (h1 : a ≠ []) (h2 : endsSlash a = false) :
    dPre a = a ++ ['/'] := by
  unfold dPre
  rw [if_neg (by simp [h1, h2])]

theorem startsSlash_append_left (x y : List Char) (hx : x ≠ []) :
    startsSlash (x ++ y) = startsSlash x := by
  cases x with
  | nil => exact absurd rfl hx
  | cons c cs => rfl

theorem endsSlash_append (x y : List Char) (hy : y ≠ []) :
    endsSlash (x ++ y) = endsSlash y := by
  unfold endsSlash
  rw [List.reverse_append]
  exact startsSlash_append_left _ _ (by simpa using hy)

theorem jcL_plain_shape (l : List (List Char)) (hl : l ≠ [])
    (h : ∀ x ∈ l, x ≠ [] ∧ ∀ c ∈ x, c ≠ '/') :
    jcL l ≠ [] ∧ startsSlash (jcL l) = false ∧ endsSlash (jcL l) = false := by
  induction l with
  | nil => exact absurd rfl hl
  | cons x xs ih =>
    obtain ⟨hxne, hxsl⟩ := h x (by simp)
    have hstart : startsSlash x = false := by
      cases x with
      | nil => exact absurd rfl hxne
      | cons c cs => simpa [startsSlash] using hxsl c (by simp)
    have hendx : endsSlash x = false := by
      unfold endsSlash
      cases hr : x.reverse with
      | nil =>
        rw [List.reverse_eq_nil_iff] at hr
        exact absurd hr hxne
      | cons c cs =>
        have hcx : c ∈ x := by
          rw [← List.mem_reverse, hr]
          simp
        simpa [startsSlash] using hxsl c hcx
    cases xs with
    | nil => exact ⟨hxne, hstart, hendx⟩
    | cons y ys =>
      obtain ⟨ihne, _, ihend⟩ := ih (by simp) (fun a ha => h a (List.mem_cons_of_mem x ha))
      refine ⟨?_, ?_, ?_⟩
      · show x ++ '/' :: jcL (y :: ys) ≠ []
        simp
      · show startsSlash (x ++ '/' :: jcL (y :: ys)) = false
        rw [startsSlash_append_left x _ hxne]
        exact hstart
      · show endsSlash (x ++ '/' :: jcL (y :: ys)) = false
        rw [show ('/' :: jcL (y :: ys)) = ['/'] ++ jcL (y :: ys) from rfl,
          ← List.append_assoc, endsSlash_append _ _ ihne]
        exact ihend

theorem plainAll (rd : List String) (g : String)
    (hp : ∀ x ∈ rd, plainName x) (hs : ∀ c ∈ g.data, c ≠ '/')
    (hd : ∃ c ∈ g.data, c ≠ '.') :
    ∀ x ∈ rd ++ [g], plainName x := by
  intro x hx
  rcases List.mem_append.mp hx with hx | hx
  · exact hp x hx
  · rw [List.mem_singleton.mp hx]
    refine ⟨?_, hs⟩
    rcases hd with ⟨c, hc, _⟩
    exact List.ne_nil_of_mem hc

theorem joinComps_plain (l : List String) (hl : l ≠ []) (h : ∀ x ∈ l, plainName x) :
    (joinComps l).data ≠ [] ∧ startsSlash (joinComps l).data = false ∧
      endsSlash (joinComps l).data = false := by
  apply jcL_plain_shape
  · simpa using hl
  · intro x hx
    obtain ⟨s, hs, rfl⟩ := List.mem_map.mp hx
    exact h s hs

/-- The byte-level shape of a non-degenerate subpage destination path:
the destination folder, a separator unless the folder is empty or already ends
in `/`, the extension-stripped relative path, `/`, and `index.md`. -/
theorem destPathFor_data (d : String) (rd : List String) (g : String)
    (hsl : ∀ c ∈ g.data, c ≠ '/') (hnd : ∃ c ∈ g.data, c ≠ '.')
    (hplain : ∀ x ∈ rd, plainName x) :
    (destPathFor d rd (g ++ ".md")).data
      = dPre d.data ++ (joinComps (rd ++ [g])).data ++ '/' :: "index.md".data := by
  obtain ⟨hSne, hSstart, hSend⟩ :=
    joinComps_plain (rd ++ [g]) (by simp) (plainAll rd g hplain hsl hnd)
  have e0 : destPathFor d rd (g ++ ".md") = pjoin (pjoin d (joinComps (rd ++ [g]))) "index.md" := by
    unfold destPathFor destDirFor
    rw [splitextRoot_strip rd g hsl hnd]
  rw [e0]
  have hA_ne : dPre d.data ++ (joinComps (rd ++ [g])).data ≠ [] := by
    intro hcon
    exact hSne (List.append_eq_nil.mp hcon).2
  have hA_end : endsSlash (dPre d.data ++ (joinComps (rd ++ [g])).data) = false := by
    rw [endsSlash_append _ _ hSne]
    exact hSend
  have e1 : (pjoin (pjoin d (joinComps (rd ++ [g]))) "index.md").data
      = dPre (pjoin d (joinComps (rd ++ [g]))).data ++ "index.md".data :=
    pjoinL_rel (pjoin d (joinComps (rd ++ [g]))).data "index.md".data (by decide)
  have e2 : (pjoin d (joinComps (rd ++ [g]))).data
      = dPre d.data ++ (joinComps (rd ++ [g])).data :=
    pjoinL_rel d.data (joinComps (rd ++ [g])).data hSstart
  rw [e1, e2, dPre_of_not _ hA_ne hA_end]
  simp

/-! ### C1 -/

/-- C1 (amended): for a markdown file at relative components `rd ++ [g ++ ".md"]`
under the subpages root, provided the pre-extension part `g` of the file name
contains some character other than `.` (and no `/`), the computed destination
path strips the `.md` extension and appends the fixed index file name:
`<destination>/<rd>/<g>/index.md`. -/
theorem c1_subpage_destination (d : String) (rd : List String) (g : String)
    (hsl : ∀ c ∈ g.data, c ≠ '/') (hnd : ∃ c ∈ g.data, c ≠ '.') :
    destPathFor d rd (g ++ ".md") = pjoin (pjoin d (joinComps (rd ++ [g]))) "index.md" := by
  unfold destPathFor destDirFor
  rw [splitextRoot_strip rd g hsl hnd]

/-- Witness for C1: `subpages/a/b/c.md` with destination `site` goes to
`site/a/b/c/index.md`. -/
theorem c1_witness :
    destPathFor "site" ["a", "b"] ("c" ++ ".md")
        = pjoin (pjoin "site" (joinComps (["a", "b"] ++ ["c"]))) "index.md" ∧
    destPathFor "site" ["a", "b"] ("c" ++ ".md") = "site/a/b/c/index.md" :=
  ⟨c1_subpage_destination "site" ["a", "b"] "c" (by decide) (by decide), by decide⟩

/-- Counterexample to C1 as stated: a file named `.md` ends in `.md` and is
converted, but `os.path.splitext` treats the leading dot of a basename as part
of the root, so nothing is stripped: the destination is `site/.md/index.md`,
not the `site/index.md` the claim's extension-stripping rule computes for it. -/
theorem c1_counterexample :
    hasMdSuffix ".md" = true ∧
    destPathFor "site" [] ".md" = "site/.md/index.md" ∧
    pjoin (pjoin "site" (joinComps [""])) "index.md" = "site/index.md" ∧
    ("site/.md/index.md" : String) ≠ "site/index.md" := by
  decide

/-! ### C2 -/

/-- C2 (amended): restricted to markdown files whose pre-extension name part
contains some non-dot character, the flattening map is injective — two distinct
(relative directory, pre-extension name) pairs give distinct destination
paths — and no such subpage destination equals the home page destination
`<destination folder>/index.md`. -/
theorem c2_destinations_disjoint (d : String) (rd₁ rd₂ : List String) (g₁ g₂ : String)
    (hp₁ : ∀ x ∈ rd₁, plainName x) (hp₂ : ∀ x ∈ rd₂, plainName x)
    (hs₁ : ∀ c ∈ g₁.data, c ≠ '/') (hs₂ : ∀ c ∈ g₂.data, c ≠ '/')
    (hd₁ : ∃ c ∈ g₁.data, c ≠ '.') (hd₂ : ∃ c ∈ g₂.data, c ≠ '.')
    (hne : (rd₁, g₁) ≠ (rd₂, g₂)) :
    destPathFor d rd₁ (g₁ ++ ".md") ≠ destPathFor d rd₂ (g₂ ++ ".md") ∧
    destPathFor d rd₁ (g₁ ++ ".md") ≠ d ++ "/index.md" := by
  have e₁ := destPathFor_data d rd₁ g₁ hs₁ hd₁ hp₁
  obtain ⟨hJne, _, _⟩ := joinComps_plain (rd₁ ++ [g₁]) (by simp) (plainAll rd₁ g₁ hp₁ hs₁ hd₁)
  constructor
  · intro hcon
    apply hne
    have hdata := congrArg String.data hcon
    rw [e₁, destPathFor_data d rd₂ g₂ hs₂ hd₂ hp₂] at hdata
    have h5 := List.append_cancel_right hdata
    have h6 := List.append_cancel_left h5
    have h7 : joinComps (rd₁ ++ [g₁]) = joinComps (rd₂ ++ [g₂]) := String.ext h6
    have h8 := joinComps_inj _ _ (plainAll rd₁ g₁ hp₁ hs₁ hd₁) (plainAll rd₂ g₂ hp₂ hs₂ hd₂) h7
    obtain ⟨h9, h10⟩ := List.append_inj' h8 rfl
    simp only [List.cons.injEq, and_true] at h10
    rw [h9, h10]
  · intro hcon
    have hdata := congrArg String.data hcon
    rw [e₁] at hdata
    have hhome : (d ++ "/index.md").data = d.data ++ '/' :: "index.md".data := rfl
    rw [hhome] at hdata
    rcases dPre_cases d.data with hq | hq
    · rw [hq, List.append_assoc] at hdata
      have h5 := List.append_cancel_left hdata
      have h6 : (joinComps (rd₁ ++ [g₁])).data ++ '/' :: "index.md".data
          = [] ++ '/' :: "index.md".data := by simpa using h5
      exact hJne (List.append_cancel_right h6)
    · rw [hq] at hdata
      have h5 : d.data ++ ('/' :: ((joinComps (rd₁ ++ [g₁])).data ++ '/' :: "index.md".data))
          = d.data ++ '/' :: "index.md".data := by
        rw [← hdata]
        simp
      have h6 := List.append_cancel_left h5
      injection h6 with _ h7
      have hlen := congrArg List.length h7
      simp at hlen

/-- Witness for C2 (amended): `a.md` at the subpages root and `a/b.md` one
level down go to distinct destinations, and neither is the home destination. -/
theorem c2_witness :
    destPathFor "site" [] ("a" ++ ".md") ≠ destPathFor "site" ["a"] ("b" ++ ".md") ∧
    destPathFor "site" [] ("a" ++ ".md") ≠ "site" ++ "/index.md" :=
  c2_destinations_disjoint "site" [] ["a"] "a" "b" (by decide) (by decide) (by decide)
    (by decide) (by decide) (by decide) (by decide)

/-- Counterexample to C2 as stated: the distinct file names `.md` and `.md.md`
both end in `.md`, and `os.path.splitext` sends both relative paths to the root
`.md` (for `.md` the leading dot is no extension; for `.md.md` the final `.md`
is stripped), so two distinct markdown sources in one run are written to the
same destination `site/.md/index.md`. -/
theorem c2_counterexample :
    (".md" : String) ≠ ".md.md" ∧
    destPathFor "site" [] ".md" = destPathFor "site" [] ".md.md" ∧
    convertDests (subpageEvents "source_repo/sub" "site" (FTree.node [] [".md", ".md.md"]))
      = ["site/.md/index.md", "site/.md/index.md"] := by
  decide

/-! ### Shape of the subpage step -/

theorem subpagePart_none (cm : ContentMapping) (disk : String → Option FTree)
    (h : cm.subpages_folder = none) : subpagePart cm disk = [] := by
  unfold subpagePart
  rw [h]

theorem subpagePart_some (cm : ContentMapping) (disk : String → Option FTree) (s : String)
    (h : cm.subpages_folder = some s) :
    subpagePart cm disk
      = if s ≠ "" ∧ s ≠ "<none>" then
          (match disk ("source_repo/" ++ s) with
           | some t => subpageEvents ("source_repo/" ++ s) cm.destination_folder t
           | none => [])
        else [] := by
  unfold subpagePart
  rw [h]

theorem subpageEvents_shape (src d : String) (t : FTree) :
    ∀ e ∈ subpageEvents src d t,
      (∃ a, e = Ev.mkdirs a true) ∨ ∃ s₂ d₂, e = Ev.convert s₂ d₂ "source_repo" := by
  intro e he
  unfold subpageEvents at he
  obtain ⟨x, _, hx⟩ := List.mem_flatMap.mp he
  by_cases hmd : hasMdSuffix x.2
  · rw [if_pos hmd] at hx
    rcases (by simpa [pageEventsFor] using hx : e = _ ∨ e = _) with rfl | rfl
    · exact Or.inl ⟨_, rfl⟩
    · exact Or.inr ⟨_, _, rfl⟩
  · rw [if_neg hmd] at hx
    exact absurd hx (List.not_mem_nil e)

theorem subpagePart_shape (cm : ContentMapping) (disk : String → Option FTree) :
    ∀ e ∈ subpagePart cm disk,
      (∃ a, e = Ev.mkdirs a true) ∨ ∃ s₂ d₂, e = Ev.convert s₂ d₂ "source_repo" := by
  intro e he
  cases hsf : cm.subpages_folder with
  | none =>
    rw [subpagePart_none cm disk hsf] at he
    exact absurd he (List.not_mem_nil e)
  | some s =>
    rw [subpagePart_some cm disk s hsf] at he
    by_cases hc : s ≠ "" ∧ s ≠ "<none>"
    · rw [if_pos hc] at he
      cases hdisk : disk ("source_repo/" ++ s) with
      | none =>
        rw [hdisk] at he
        exact absurd he (List.not_mem_nil e)
      | some t =>
        rw [hdisk] at he
        exact subpageEvents_shape _ _ t e he
    · rw [if_neg hc] at he
      exact absurd he (List.not_mem_nil e)

/-! ### C3 -/

/-- C3: in every `generate` run the first `convert_file` call of the trace is
the home page, and its destination is exactly `<destination folder>/index.md`
at the destination root (plain string concatenation, no per-page
subdirectory); all other conversions come after it. -/
theorem c3_home_first (cp : String) (cfg : Config) (disk : String → Option FTree) :
    ∃ rest, convertsOf (generate cp cfg disk)
      = ("source_repo/" ++ cfg.content_mapping.home_page_source,
         cfg.content_mapping.destination_folder ++ "/index.md", "source_repo") :: rest := by
  refine ⟨convertsOf (subpagePart cfg.content_mapping disk), ?_⟩
  unfold generate convertsOf
  rw [List.filterMap_append, List.filterMap_append]
  simp

/-! ### C5 -/

/-- The configurations under which the subpage step contributes nothing: no
subpages folder configured (absent key or Python-falsy empty string), the
`"<none>"` placeholder, or a configured folder absent on disk. -/
def skipCond (cm : ContentMapping) (disk : String → Option FTree) : Prop :=
  match cm.subpages_folder with
  | none => True
  | some s => s = "" ∨ s = "<none>" ∨ disk ("source_repo/" ++ s) = none

theorem subpagePart_eq_nil (cm : ContentMapping) (disk : String → Option FTree)
    (h : skipCond cm disk) : subpagePart cm disk = [] := by
  cases hsf : cm.subpages_folder with
  | none => exact subpagePart_none cm disk hsf
  | some s =>
    rw [subpagePart_some cm disk s hsf]
    have h' : s = "" ∨ s = "<none>" ∨ disk ("source_repo/" ++ s) = none := by
      unfold skipCond at h
      rw [hsf] at h
      exact h
    rcases h' with rfl | rfl | hd
    · rw [if_neg (by simp)]
    · rw [if_neg (by simp)]
    · by_cases hc : s ≠ "" ∧ s ≠ "<none>"
      · rw [if_pos hc, hd]
      · rw [if_neg hc]

/-- Does the trace contain a warning diagnostic? -/
def hasWarn (l : List Ev) : Bool :=
  l.any (fun e => match e with | Ev.warn _ => true | _ => false)

/-- C5 (amended): if no subpages folder is configured, or the configured folder
is absent on disk, the subpage-conversion step is skipped silently — no
warning or any other diagnostic is emitted — and the run proceeds directly
from the home-page conversion to asset copying and completes. -/
theorem c5_skip_silent (cp : String) (cfg : Config) (disk : String → Option FTree)
    (h : skipCond cfg.content_mapping disk) :
    generate cp cfg disk
      = [Ev.loadConfig cp,
         Ev.fetch cfg.source_repository,
         Ev.echo ("Destination folder: " ++ cfg.content_mapping.destination_folder),
         Ev.createStructure cfg.content_mapping.destination_folder,
         Ev.convert ("source_repo/" ++ cfg.content_mapping.home_page_source)
           (cfg.content_mapping.destination_folder ++ "/index.md") "source_repo",
         Ev.copyAssets "source_repo"
           (cfg.content_mapping.destination_folder ++ "/" ++
             cfg.content_mapping.media_destination_folder),
         Ev.echo "Website generated successfully!"] ∧
    hasWarn (generate cp cfg disk) = false := by
  have htr : generate cp cfg disk
      = [Ev.loadConfig cp,
         Ev.fetch cfg.source_repository,
         Ev.echo ("Destination folder: " ++ cfg.content_mapping.destination_folder),
         Ev.createStructure cfg.content_mapping.destination_folder,
         Ev.convert ("source_repo/" ++ cfg.content_mapping.home_page_source)
           (cfg.content_mapping.destination_folder ++ "/index.md") "source_repo",
         Ev.copyAssets "source_repo"
           (cfg.content_mapping.destination_folder ++ "/" ++
             cfg.content_mapping.media_destination_folder),
         Ev.echo "Website generated successfully!"] := by
    unfold generate
    rw [subpagePart_eq_nil cfg.content_mapping disk h]
    rfl
  exact ⟨htr, by rw [htr]; rfl⟩

/-- Witness for C5 (amended): a configured subpages folder `docs` missing from
disk is skipped silently and the run completes. -/
theorem c5_witness :
    generate "config.yml" ⟨"r", ⟨"home.md", some "docs", "site", "assets/media"⟩⟩
        (fun _ => none)
      = [Ev.loadConfig "config.yml",
         Ev.fetch "r",
         Ev.echo ("Destination folder: " ++ "site"),
         Ev.createStructure "site",
         Ev.convert ("source_repo/" ++ "home.md") ("site" ++ "/index.md") "source_repo",
         Ev.copyAssets "source_repo" ("site" ++ "/" ++ "assets/media"),
         Ev.echo "Website generated successfully!"] ∧
    hasWarn (generate "config.yml" ⟨"r", ⟨"home.md", some "docs", "site", "assets/media"⟩⟩
        (fun _ => none)) = false :=
  c5_skip_silent "config.yml" ⟨"r", ⟨"home.md", some "docs", "site", "assets/media"⟩⟩
    (fun _ => none) (Or.inr (Or.inr rfl))

/-- Counterexample to C5 as stated: with subpages folder `docs` configured but
absent on disk, the step is skipped and the run proceeds to asset copying, but
no warning is emitted anywhere in the trace — the code prints nothing in the
skip branches of lines 45 and 48 of `src/cli.py`. -/
theorem c5_counterexample :
    hasWarn (generate "config.yml"
        ⟨"r", ⟨"home.md", some "docs", "site", "assets/media"⟩⟩ (fun _ => none)) = false ∧
    convertsOf (generate "config.yml"
        ⟨"r", ⟨"home.md", some "docs", "site", "assets/media"⟩⟩ (fun _ => none))
      = [("source_repo/home.md", "site/index.md", "source_repo")] ∧
    Ev.copyAssets "source_repo" "site/assets/media"
      ∈ generate "config.yml"
          ⟨"r", ⟨"home.md", some "docs", "site", "assets/media"⟩⟩ (fun _ => none) := by
  decide

/-! ### C8 -/

/-- C8: the literal `"<none>"` as subpages folder is treated identically to no
subpages folder at all: the two runs have the same trace for every disk state,
including disks where a directory literally named `<none>` exists under the
source root. -/
theorem c8_none_placeholder (cp src home d media : String) (disk : String → Option FTree) :
    generate cp ⟨src, ⟨home, some "<none>", d, media⟩⟩ disk
      = generate cp ⟨src, ⟨home, none, d, media⟩⟩ disk := by
  unfold generate
  rw [subpagePart_eq_nil ⟨home, some "<none>", d, media⟩ disk (Or.inr (Or.inl rfl)),
    subpagePart_eq_nil ⟨home, none, d, media⟩ disk trivial]

/-! ### C7 -/

/-- C7: the asset-copy call of every run targets exactly
`<destination folder>/<media destination folder>` with source root
`source_repo`: such an event occurs in the trace, and every asset-copy event
of the trace carries exactly these two arguments. -/
theorem c7_assets_destination (cp : String) (cfg : Config) (disk : String → Option FTree) :
    (Ev.copyAssets "source_repo"
        (cfg.content_mapping.destination_folder ++ "/" ++
          cfg.content_mapping.media_destination_folder)
      ∈ generate cp cfg disk) ∧
    ∀ s₂ d₂, Ev.copyAssets s₂ d₂ ∈ generate cp cfg disk →
      s₂ = "source_repo" ∧
      d₂ = cfg.content_mapping.destination_folder ++ "/" ++
        cfg.content_mapping.media_destination_folder := by
  constructor
  · unfold generate
    simp
  · intro s₂ d₂ h
    unfold generate at h
    rcases List.mem_append.mp h with h | h
    · rcases List.mem_append.mp h with h | h
      · simp at h
      · rcases subpagePart_shape _ _ _ h with ⟨a, ha⟩ | ⟨s₃, d₃, hc⟩
        · simp at ha
        · simp at hc
    · simpa using h

/-- Witness for C7: at a concrete configuration the uniqueness half applies to
the one asset-copy event in the trace. -/
theorem c7_witness :
    "source_repo" = "source_repo" ∧
    "site/assets/media" = "site" ++ "/" ++ "assets/media" :=
  (c7_assets_destination "config.yml"
      ⟨"r", ⟨"home.md", none, "site", "assets/media"⟩⟩ (fun _ => none)).2
    "source_repo" "site/assets/media" (by decide)

/-! ### C4: positions of the steps in the trace -/

/-- Complete characterization of what can sit at each position of a
`generate` trace. -/
theorem generate_getElem (cp : String) (cfg : Config) (disk : String → Option FTree)
    (i : Nat) (e : Ev)
    (h : (generate cp cfg disk)[i]? = some e) :
    (i = 0 ∧ e = Ev.loadConfig cp) ∨
    (i = 1 ∧ e = Ev.fetch cfg.source_repository) ∨
    (i = 2 ∧ e = Ev.echo ("Destination folder: " ++ cfg.content_mapping.destination_folder)) ∨
    (i = 3 ∧ e = Ev.createStructure cfg.content_mapping.destination_folder) ∨
    (i = 4 ∧ e = Ev.convert ("source_repo/" ++ cfg.content_mapping.home_page_source)
        (cfg.content_mapping.destination_folder ++ "/index.md") "source_repo") ∨
    (5 ≤ i ∧ i < 5 + (subpagePart cfg.content_mapping disk).length
        ∧ e ∈ subpagePart cfg.content_mapping disk) ∨
    (i = 5 + (subpagePart cfg.content_mapping disk).length ∧
        e = Ev.copyAssets "source_repo" (cfg.content_mapping.destination_folder ++ "/" ++
          cfg.content_mapping.media_destination_folder)) ∨
    (i = 6 + (subpagePart cfg.content_mapping disk).length ∧
        e = Ev.echo "Website generated successfully!") := by
  have hform : generate cp cfg disk
      = Ev.loadConfig cp ::
        Ev.fetch cfg.source_repository ::
        Ev.echo ("Destination folder: " ++ cfg.content_mapping.destination_folder) ::
        Ev.createStructure cfg.content_mapping.destination_folder ::
        Ev.convert ("source_repo/" ++ cfg.content_mapping.home_page_source)
          (cfg.content_mapping.destination_folder ++ "/index.md") "source_repo" ::
        (subpagePart cfg.content_mapping disk ++
          [Ev.copyAssets "source_repo" (cfg.content_mapping.destination_folder ++ "/" ++
              cfg.content_mapping.media_destination_folder),
           Ev.echo "Website generated successfully!"]) := by
    unfold generate
    simp
  rw [hform] at h
  rcases i with _ | _ | _ | _ | _ | m
  · simp only [List.getElem?_cons_zero, Option.some.injEq] at h
    exact Or.inl ⟨rfl, h.symm⟩
  · simp only [List.getElem?_cons_succ, List.getElem?_cons_zero, Option.some.injEq] at h
    exact Or.inr (Or.inl ⟨rfl, h.symm⟩)
  · simp only [List.getElem?_cons_succ, List.getElem?_cons_zero, Option.some.injEq] at h
    exact Or.inr (Or.inr (Or.inl ⟨rfl, h.symm⟩))
  · simp only [List.getElem?_cons_succ, List.getElem?_cons_zero, Option.some.injEq] at h
    exact Or.inr (Or.inr (Or.inr (Or.inl ⟨rfl, h.symm⟩)))
  · simp only [List.getElem?_cons_succ, List.getElem?_cons_zero, Option.some.injEq] at h
    exact Or.inr (Or.inr (Or.inr (Or.inr (Or.inl ⟨rfl, h.symm⟩))))
  · simp only [List.getElem?_cons_succ] at h
    by_cases hm : m < (subpagePart cfg.content_mapping disk).length
    · rw [List.getElem?_append_left hm] at h
      exact Or.inr (Or.inr (Or.inr (Or.inr (Or.inr (Or.inl
        ⟨by omega, by omega, List.getElem?_mem h⟩)))))
    · rw [List.getElem?_append_right (le_of_not_lt hm)] at h
      rcases hk : m - (subpagePart cfg.content_mapping disk).length with _ | _ | k₂
      · rw [hk] at h
        simp only [List.getElem?_cons_zero, Option.some.injEq] at h
        exact Or.inr (Or.inr (Or.inr (Or.inr (Or.inr (Or.inr (Or.inl
          ⟨by omega, h.symm⟩))))))
      · rw [hk] at h
        simp only [List.getElem?_cons_succ, List.getElem?_cons_zero, Option.some.injEq] at h
        exact Or.inr (Or.inr (Or.inr (Or.inr (Or.inr (Or.inr (Or.inr
          ⟨by omega, h.symm⟩))))))
      · rw [hk] at h
        simp at h

theorem loadConfig_index (cp : String) (cfg : Config) (disk : String → Option FTree)
    (i : Nat) (p : String)
    (h : (generate cp cfg disk)[i]? = some (Ev.loadConfig p)) : i = 0 := by
  rcases generate_getElem cp cfg disk i _ h with
    ⟨h1, _⟩ | ⟨_, h2⟩ | ⟨_, h2⟩ | ⟨_, h2⟩ | ⟨_, h2⟩ | ⟨_, _, hm⟩ | ⟨_, h2⟩ | ⟨_, h2⟩
  · exact h1
  · simp at h2
  · simp at h2
  · simp at h2
  · simp at h2
  · rcases subpagePart_shape _ _ _ hm with ⟨a, ha⟩ | ⟨s₃, d₃, hc⟩
    · simp at ha
    · simp at hc
  · simp at h2
  · simp at h2

theorem createStructure_index (cp : String) (cfg : Config) (disk : String → Option FTree)
    (i : Nat) (dd : String)
    (h : (generate cp cfg disk)[i]? = some (Ev.createStructure dd)) : i = 3 := by
  rcases generate_getElem cp cfg disk i _ h with
    ⟨_, h2⟩ | ⟨_, h2⟩ | ⟨_, h2⟩ | ⟨h1, _⟩ | ⟨_, h2⟩ | ⟨_, _, hm⟩ | ⟨_, h2⟩ | ⟨_, h2⟩
  · simp at h2
  · simp at h2
  · simp at h2
  · exact h1
  · simp at h2
  · rcases subpagePart_shape _ _ _ hm with ⟨a, ha⟩ | ⟨s₃, d₃, hc⟩
    · simp at ha
    · simp at hc
  · simp at h2
  · simp at h2

theorem convert_bounds (cp : String) (cfg : Config) (disk : String → Option FTree)
    (i : Nat) (s₂ d₂ b : String)
    (h : (generate cp cfg disk)[i]? = some (Ev.convert s₂ d₂ b)) :
    4 ≤ i ∧ i < 5 + (subpagePart cfg.content_mapping disk).length := by
  rcases generate_getElem cp cfg disk i _ h with
    ⟨_, h2⟩ | ⟨_, h2⟩ | ⟨_, h2⟩ | ⟨_, h2⟩ | ⟨h1, _⟩ | ⟨hb1, hb2, _⟩ | ⟨_, h2⟩ | ⟨_, h2⟩
  · simp at h2
  · simp at h2
  · simp at h2
  · simp at h2
  · omega
  · omega
  · simp at h2
  · simp at h2

theorem copyAssets_index (cp : String) (cfg : Config) (disk : String → Option FTree)
    (i : Nat) (a m : String)
    (h : (generate cp cfg disk)[i]? = some (Ev.copyAssets a m)) :
    i = 5 + (subpagePart cfg.content_mapping disk).length := by
  rcases generate_getElem cp cfg disk i _ h with
    ⟨_, h2⟩ | ⟨_, h2⟩ | ⟨_, h2⟩ | ⟨_, h2⟩ | ⟨_, h2⟩ | ⟨_, _, hm⟩ | ⟨h1, _⟩ | ⟨_, h2⟩
  · simp at h2
  · simp at h2
  · simp at h2
  · simp at h2
  · simp at h2
  · rcases subpagePart_shape _ _ _ hm with ⟨a₂, ha⟩ | ⟨s₃, d₃, hc⟩
    · simp at ha
    · simp at hc
  · exact h1
  · simp at h2

/-- C4: the fixed step order of every run: the configuration load comes before
the destination layout creation, the layout creation before every page
conversion (home or subpage), every page conversion before the asset copy, and
the home-page conversion sits at position 4, before the subpage events (which
occupy positions 5 up to the asset copy). -/
theorem c4_step_order (cp : String) (cfg : Config) (disk : String → Option FTree) :
    (∀ (i j : Nat) (p dd : String),
        (generate cp cfg disk)[i]? = some (Ev.loadConfig p) →
        (generate cp cfg disk)[j]? = some (Ev.createStructure dd) → i < j) ∧
    (∀ (i j : Nat) (dd s₂ d₂ b : String),
        (generate cp cfg disk)[i]? = some (Ev.createStructure dd) →
        (generate cp cfg disk)[j]? = some (Ev.convert s₂ d₂ b) → i < j) ∧
    (∀ (i j : Nat) (s₂ d₂ b a m : String),
        (generate cp cfg disk)[i]? = some (Ev.convert s₂ d₂ b) →
        (generate cp cfg disk)[j]? = some (Ev.copyAssets a m) → i < j) ∧
    (generate cp cfg disk)[4]?
      = some (Ev.convert ("source_repo/" ++ cfg.content_mapping.home_page_source)
          (cfg.content_mapping.destination_folder ++ "/index.md") "source_repo") := by
  refine ⟨?_, ?_, ?_, ?_⟩
  · intro i j p dd hi hj
    have h1 := loadConfig_index cp cfg disk i p hi
    have h2 := createStructure_index cp cfg disk j dd hj
    omega
  · intro i j dd s₂ d₂ b hi hj
    have h1 := createStructure_index cp cfg disk i dd hi
    have h2 := convert_bounds cp cfg disk j s₂ d₂ b hj
    omega
  · intro i j s₂ d₂ b a m hi hj
    have h1 := convert_bounds cp cfg disk i s₂ d₂ b hi
    have h2 := copyAssets_index cp cfg disk j a m hj
    omega
  · have hform : generate cp cfg disk
        = Ev.loadConfig cp ::
          Ev.fetch cfg.source_repository ::
          Ev.echo ("Destination folder: " ++ cfg.content_mapping.destination_folder) ::
          Ev.createStructure cfg.content_mapping.destination_folder ::
          Ev.convert ("source_repo/" ++ cfg.content_mapping.home_page_source)
            (cfg.content_mapping.destination_folder ++ "/index.md") "source_repo" ::
          (subpagePart cfg.content_mapping disk ++
            [Ev.copyAssets "source_repo" (cfg.content_mapping.destination_folder ++ "/" ++
                cfg.content_mapping.media_destination_folder),
             Ev.echo "Website generated successfully!"]) := by
      unfold generate
      simp
    rw [hform]
    simp

/-- Witness for C4: the three orderings applied to a concrete run (config load
at 0, layout at 3, home conversion at 4, asset copy at 5). -/
theorem c4_witness : (0 : Nat) < 3 ∧ (3 : Nat) < 4 ∧ (4 : Nat) < 5 :=
  ⟨(c4_step_order "config.yml" ⟨"r", ⟨"home.md", none, "site", "assets/media"⟩⟩
        (fun _ => none)).1 0 3 "config.yml" "site" (by decide) (by decide),
   (c4_step_order "config.yml" ⟨"r", ⟨"home.md", none, "site", "assets/media"⟩⟩
        (fun _ => none)).2.1 3 4 "site" "source_repo/home.md" "site/index.md" "source_repo"
     (by decide) (by decide),
   (c4_step_order "config.yml" ⟨"r", ⟨"home.md", none, "site", "assets/media"⟩⟩
        (fun _ => none)).2.2.1 4 5 "source_repo/home.md" "site/index.md" "source_repo"
     "source_repo" "site/assets/media" (by decide) (by decide)⟩

/-! ### C9 -/

theorem flatMap_if_filter {α β : Type} (p : α → Bool) (F : α → List β) (L : List α) :
    (L.flatMap fun e => if p e then F e else []) = (L.filter p).flatMap F := by
  induction L with
  | nil => rfl
  | cons a l ih =>
    by_cases h : p a
    · simp [List.filter_cons, h, ih]
    · simp [List.filter_cons, h, ih]

theorem hasMdSuffix_mk_append (l : List Char) :
    hasMdSuffix ⟨l ++ ['.', 'm', 'd']⟩ = true := by
  unfold hasMdSuffix
  have hrev : (String.data ⟨l ++ ['.', 'm', 'd']⟩).reverse = 'd' :: 'm' :: '.' :: l.reverse := by
    show (l ++ ['.', 'm', 'd']).reverse = 'd' :: 'm' :: '.' :: l.reverse
    simp
  rw [hrev]
  rfl

theorem hasMdSuffix_mk_upper (l : List Char) :
    hasMdSuffix ⟨l ++ ['.', 'M', 'D']⟩ = false := by
  unfold hasMdSuffix
  have hrev : (String.data ⟨l ++ ['.', 'M', 'D']⟩).reverse = 'D' :: 'M' :: '.' :: l.reverse := by
    show (l ++ ['.', 'M', 'D']).reverse = 'D' :: 'M' :: '.' :: l.reverse
    simp
  rw [hrev]
  rfl

/-- C9: the subpage loop runs `os.makedirs` and `convert_file` for exactly the
walked files whose names end in the lowercase suffix `.md`: its event list is
the walk filtered by that suffix test, every name of the form `g ++ ".md"`
passes the test, and every name of the form `g ++ ".MD"` fails it. -/
theorem c9_md_filter (src d : String) (t : FTree) :
    subpageEvents src d t
      = ((walkFiles t).filter (fun e => hasMdSuffix e.2)).flatMap (pageEventsFor src d) ∧
    (∀ g : String, hasMdSuffix (g ++ ".md") = true) ∧
    (∀ g : String, hasMdSuffix (g ++ ".MD") = false) := by
  refine ⟨flatMap_if_filter _ _ _, fun g => hasMdSuffix_mk_append g.data,
    fun g => hasMdSuffix_mk_upper g.data⟩

/-! ### C10 -/

theorem pagePairs_mkdirs (src d : String) (L : List (List String × String)) :
    ∀ (i : Nat) (s₂ dst b : String),
      (L.flatMap fun e => if hasMdSuffix e.2 then pageEventsFor src d e else [])[i]?
          = some (Ev.convert s₂ dst b) →
      ∃ dir j, dst = pjoin dir "index.md" ∧ i = j + 1 ∧
        (L.flatMap fun e => if hasMdSuffix e.2 then pageEventsFor src d e else [])[j]?
          = some (Ev.mkdirs dir true) := by
  induction L with
  | nil =>
    intro i s₂ dst b h
    simp at h
  | cons a l ih =>
    intro i s₂ dst b h
    rw [List.flatMap_cons] at h ⊢
    by_cases hmd : hasMdSuffix a.2
    · rw [if_pos hmd] at h ⊢
      have hform : pageEventsFor src d a ++
            (l.flatMap fun e => if hasMdSuffix e.2 then pageEventsFor src d e else [])
          = Ev.mkdirs (destDirFor d a.1 a.2) true ::
            Ev.convert (srcPathFor src a.1 a.2) (destPathFor d a.1 a.2) "source_repo" ::
            (l.flatMap fun e => if hasMdSuffix e.2 then pageEventsFor src d e else []) := rfl
      rw [hform] at h ⊢
      rcases i with _ | _ | k
      · simp at h
      · simp only [List.getElem?_cons_succ, List.getElem?_cons_zero, Option.some.injEq,
          Ev.convert.injEq] at h
        refine ⟨destDirFor d a.1 a.2, 0, ?_, rfl, by simp⟩
        rw [← h.2.1]
        rfl
      · simp only [List.getElem?_cons_succ] at h
        obtain ⟨dir, j, hdst, hkj, hprev⟩ := ih k s₂ dst b h
        refine ⟨dir, j + 2, hdst, by omega, ?_⟩
        simp only [List.getElem?_cons_succ]
        exact hprev
    · rw [if_neg hmd] at h ⊢
      simp only [List.nil_append] at h ⊢
      exact ih i s₂ dst b h

/-- C10: within the subpage step, every `convert_file` event is immediately
preceded by an `os.makedirs(dest_dir, exist_ok=True)` event for the directory
of its destination path: the directory is created — tolerating a directory
already present from a previous run — right before the conversion runs. -/
theorem c10_mkdirs_before_convert (src d : String) (t : FTree) (i : Nat) (s₂ dst b : String)
    (h : (subpageEvents src d t)[i]? = some (Ev.convert s₂ dst b)) :
    ∃ dir j, dst = pjoin dir "index.md" ∧ i = j + 1 ∧
      (subpageEvents src d t)[j]? = some (Ev.mkdirs dir true) :=
  pagePairs_mkdirs src d (walkFiles t) i s₂ dst b h

/-- Witness for C10: in a one-file tree the conversion sits at position 1 and
its `mkdirs` at position 0. -/
theorem c10_witness :
    ∃ dir j, ("site/a/index.md" : String) = pjoin dir "index.md" ∧ (1 : Nat) = j + 1 ∧
      (subpageEvents "source_repo/sub" "site" (FTree.node [] ["a.md"]))[j]?
        = some (Ev.mkdirs dir true) :=
  c10_mkdirs_before_convert "source_repo/sub" "site" (FTree.node [] ["a.md"]) 1
    "source_repo/sub/a.md" "site/a/index.md" "source_repo" (by decide)

/-! ### C6 -/

theorem walkDirs_ne_nil_fst (dirs : List (String × FTree)) :
    ∀ e ∈ walkDirs dirs, e.1 ≠ [] := by
  induction dirs with
  | nil =>
    intro e he
    simp [walkDirs] at he
  | cons dt rest ih =>
    obtain ⟨dn, tt⟩ := dt
    intro e he
    have he' : (∃ a b, (a, b) ∈ walkFiles tt ∧ (dn :: a, b) = e) ∨ e ∈ walkDirs rest := by
      simpa [walkDirs] using he
    rcases he' with ⟨a, b, _, rfl⟩ | h
    · simp
    · exact ih e h

/-- C6 (amended): the traversal emits the files of a directory (in
directory-listing order) before any file of its subdirectories: in
`walkFiles` every root-level file sits strictly before every file carrying a
nonempty relative directory.  The order is the `os.walk` order determined by
the OS directory listing, not lexicographic path order. -/
theorem c6_walk_order (dirs : List (String × FTree)) (files : List String)
    (i j : Nat) (f g : String) (rdj : List String) (hne : rdj ≠ [])
    (hi : (walkFiles (FTree.node dirs files))[i]? = some ([], f))
    (hj : (walkFiles (FTree.node dirs files))[j]? = some (rdj, g)) :
    i < j := by
  have hform : walkFiles (FTree.node dirs files)
      = files.map (fun f₂ => (([] : List String), f₂)) ++ walkDirs dirs := rfl
  rw [hform] at hi hj
  have hilt : i < (files.map (fun f₂ => (([] : List String), f₂))).length := by
    by_contra hcon
    rw [List.getElem?_append_right (le_of_not_lt hcon)] at hi
    have hmem := walkDirs_ne_nil_fst dirs _ (List.getElem?_mem hi)
    simp at hmem
  have hjge : (files.map (fun f₂ => (([] : List String), f₂))).length ≤ j := by
    by_contra hcon
    rw [List.getElem?_append_left (lt_of_not_le hcon)] at hj
    obtain ⟨x, _, hx⟩ := List.mem_map.mp (List.getElem?_mem hj)
    exact hne (congrArg Prod.fst hx).symm
  omega

/-- Witness for C6 (amended): with one root file and one file in subdirectory
`a`, the root file (position 0) precedes the nested file (position 1). -/
theorem c6_witness : (0 : Nat) < 1 :=
  c6_walk_order [("a", FTree.node [] ["x.md"])] ["z.md"] 0 1 "z.md" "x.md" ["a"]
    (by decide) (by decide) (by decide)

/-- Strict lexicographic order on character sequences (the usual dictionary
order on paths). -/
def lexLtb : List Char → List Char → Bool
  | [], [] => false
  | [], _ :: _ => true
  | _ :: _, [] => false
  | a :: as, b :: bs => if a < b then true else if a = b then lexLtb as bs else false

/-- Counterexample to C6 as stated: in a tree whose directory listing holds
`z.md` at the root and `x.md` inside subdirectory `a`, `os.walk` emits the
root file first, so the sequence of source paths passed to `convert_file` is
not sorted lexicographically (`source_repo/sub/a/x.md` sorts strictly before
`source_repo/sub/z.md`). -/
theorem c6_counterexample :
    convertSources (subpageEvents "source_repo/sub" "site"
        (FTree.node [("a", FTree.node [] ["x.md"])] ["z.md"]))
      = ["source_repo/sub/z.md", "source_repo/sub/a/x.md"] ∧
    lexLtb ("source_repo/sub/a/x.md" : String).data ("source_repo/sub/z.md" : String).data
      = true := by
  decide

end Divisor
